import Mathlib

/-!
Verification development for the NiftyMIC slice-to-volume reconstruction core
(`src/py/reconstruction/solver/Solver.py` and `src/VolumeReconstruction.py`).

Flat image data is embedded as `List ℚ` (the numpy flattened `double` arrays,
with exact rational arithmetic in place of floating point).  External
collaborators (the ITK oriented-Gaussian filters, scipy solvers, numpy `sqrt`,
the sitk resampler and recursive Gaussian smoothers) are parameters of the
embedding; the shape contracts they are documented to satisfy (forward filter
output lives on the slice grid, adjoint filter output on the HR-volume grid,
set once via `SetOutputParametersFromImage`) are recorded as propositional
fields of the `Solver` structure.
-/

/-! ## Spec-modelled oriented-Gaussian blur-and-resample operator (claim C1)

The filters `itk.OrientedGaussianInterpolateImageFilter` and
`itk.AdjointOrientedGaussianInterpolateImageFilter` used by `Solver._Ak` and
`Solver._Ak_adj` are compiled ITK components that are not part of `src/`.
They are modelled here from the spec (section 4.2): a truncated-Gaussian
kernel over the slice and volume grid points, whose support is cut off at
`alpha_cut` standard deviations, applied identically by the forward and the
adjoint pass, the adjoint being the mathematical transpose of the forward
kernel matrix. -/

/-- Modelled from the spec: squared Mahalanobis distance of a displacement `d`
with respect to the 3×3 acquisition covariance `cov` (the inverse is written
with the adjugate and the determinant so that the definition is executable
over `ℚ`). -/
def mahalanobisSq (cov : Matrix (Fin 3) (Fin 3) ℚ) (d : Fin 3 → ℚ) : ℚ :=
  Matrix.dotProduct d (Matrix.mulVec cov.adjugate d) / cov.det

/-- Modelled from the spec: truncated-Gaussian point-spread kernel between a
slice grid point `p` and a volume grid point `q`.  The radial Gaussian profile
is the parameter `w` (standing for `exp (-m/2)`, which has no exact rational
form); the truncation at `alphaCut` standard deviations is explicit and is the
part the spec requires to be applied identically on both sides. -/
def truncGaussKernel (w : ℚ → ℚ) (cov : Matrix (Fin 3) (Fin 3) ℚ)
    (alphaCut : ℚ) (p q : Fin 3 → ℚ) : ℚ :=
  if mahalanobisSq cov (fun i => p i - q i) ≤ alphaCut ^ 2 then
    w (mahalanobisSq cov (fun i => p i - q i))
  else 0

/-- Modelled from the spec: the forward operator `A_k` (`Solver._Ak`): blur the
volume values `v` with the slice covariance and resample onto the slice grid
`slicePts`. -/
def Ak_forward {Nv Ns : ℕ} (w : ℚ → ℚ) (cov : Matrix (Fin 3) (Fin 3) ℚ)
    (alphaCut : ℚ) (slicePts : Fin Ns → Fin 3 → ℚ) (volPts : Fin Nv → Fin 3 → ℚ)
    (v : Fin Nv → ℚ) : Fin Ns → ℚ :=
  fun j => ∑ i, truncGaussKernel w cov alphaCut (slicePts j) (volPts i) * v i

/-- Modelled from the spec: the adjoint operator `A_k^T` (`Solver._Ak_adj`),
configured with the same covariance and the same `alpha_cut` truncation as the
forward operator: the transposed kernel applied to a slice-space vector `u`. -/
def Ak_adjoint {Nv Ns : ℕ} (w : ℚ → ℚ) (cov : Matrix (Fin 3) (Fin 3) ℚ)
    (alphaCut : ℚ) (slicePts : Fin Ns → Fin 3 → ℚ) (volPts : Fin Nv → Fin 3 → ℚ)
    (u : Fin Ns → ℚ) : Fin Nv → ℚ :=
  fun i => ∑ j, truncGaussKernel w cov alphaCut (slicePts j) (volPts i) * u j

/-- Euclidean inner product of two grid vectors. -/
def dotVec {n : ℕ} (a b : Fin n → ℚ) : ℚ := ∑ i, a i * b i

/-- C1: for every slice configuration (any covariance, any `alpha_cut`
truncation, any Gaussian profile, any slice/volume grids) and all vectors `v`
(volume space) and `u` (slice space), `dot (A_k v) u = dot v (A_k^T u)` holds
exactly — in particular within any numerical tolerance — because forward and
adjoint share the same truncated kernel. -/
theorem Ak_forward_adjoint_dot {Nv Ns : ℕ} (w : ℚ → ℚ)
    (cov : Matrix (Fin 3) (Fin 3) ℚ) (alphaCut : ℚ)
    (slicePts : Fin Ns → Fin 3 → ℚ) (volPts : Fin Nv → Fin 3 → ℚ)
    (v : Fin Nv → ℚ) (u : Fin Ns → ℚ) :
    dotVec (Ak_forward w cov alphaCut slicePts volPts v) u
      = dotVec v (Ak_adjoint w cov alphaCut slicePts volPts u) := by
  unfold dotVec Ak_forward Ak_adjoint
  simp only [Finset.sum_mul, Finset.mul_sum]
  rw [Finset.sum_comm]
  apply Finset.sum_congr rfl
  intro j _
  apply Finset.sum_congr rfl
  intro i _
  ring

/-! ## The reconstruction solver (`src/py/reconstruction/solver/Solver.py`)

One `Slice` holds the flattened observed intensities `y` and the flattened
binary validity mask of that slice.  A `Solver` holds the slices of all
stacks, flattened in stack-then-slice order — exactly the order in which
`_get_M_y`, `_MA` and `_A_adj_M` walk them — together with the external
per-slice filter applications and the external differential operations.
(The Python code reads each slice's voxel count from the first slice of its
stack; `Stack` guarantees all slices of a stack share it, so the flattened
per-slice counts used here agree with the offsets computed in the source.) -/

structure Slice where
  y : List ℚ
  mask : List ℚ

/-- Elementwise sum of two flat arrays (numpy `+` on equally shaped arrays). -/
def vadd (a b : List ℚ) : List ℚ := List.zipWith (· + ·) a b

/-- Elementwise difference of two flat arrays (numpy `-`). -/
def vsub (a b : List ℚ) : List ℚ := List.zipWith (· - ·) a b

/-- Masking operation `Solver._Mk`: the `itk.MultiplyImageFilter` computes the
elementwise product of the slice mask and the slice-space data. -/
def Mk (sl : Slice) (v : List ℚ) : List ℚ := List.zipWith (· * ·) sl.mask v

structure Solver where
  /-- All slices of all stacks, in stack-then-slice order. -/
  slices : List Slice
  /-- `_N_voxels_HR_volume`: voxel count of the HR volume. -/
  Nvol : ℕ
  /-- `_Ak`: the oriented-Gaussian forward filter configured for slice `k`
  (external ITK component, hence a parameter). -/
  Ak : ℕ → List ℚ → List ℚ
  /-- `_Ak_adj`: the adjoint oriented-Gaussian filter configured for slice `k`
  (external ITK component, hence a parameter). -/
  AkAdj : ℕ → List ℚ → List ℚ
  /-- `_differential_operations.Dx` (external module), flattened. -/
  Dx : List ℚ → List ℚ
  Dy : List ℚ → List ℚ
  Dz : List ℚ → List ℚ
  DxAdj : List ℚ → List ℚ
  DyAdj : List ℚ → List ℚ
  DzAdj : List ℚ → List ℚ
  /-- numpy `sqrt` (external). -/
  sqrt : ℚ → ℚ
  /-- Mask geometry equals its slice's geometry (spec section 3 invariant). -/
  hmask : ∀ sl ∈ slices, sl.mask.length = sl.y.length
  /-- The forward filter output lives on slice `k`'s grid
  (`SetOutputParametersFromImage (slice.itk)` in the filter update). -/
  hAk : ∀ k sl, slices.get? k = some sl → ∀ v, (Ak k v).length = sl.y.length
  /-- The adjoint filter output lives on the HR-volume grid
  (`SetOutputParametersFromImage (HR_volume.itk)` in `__init__`). -/
  hAkAdj : ∀ k v, (AkAdj k v).length = Nvol
  /-- The differential operations act on HR-volume-shaped arrays. -/
  hDx : ∀ v, (Dx v).length = Nvol
  hDy : ∀ v, (Dy v).length = Nvol
  hDz : ∀ v, (Dz v).length = Nvol
  hDxAdj : ∀ v, (DxAdj v).length = Nvol
  hDyAdj : ∀ v, (DyAdj v).length = Nvol
  hDzAdj : ∀ v, (DzAdj v).length = Nvol

/-- `_N_total_slice_voxels`: the total voxel count over all slices. -/
def Solver.N0 (S : Solver) : ℕ := (S.slices.map fun sl => sl.y.length).sum

/-- Loop body of `Solver._MA`: starting at slice index `k`, compute each
`M_k A_k x` and write it into the next contiguous segment (`i_min` to
`i_max`) of the result, which amounts to concatenating the segments. -/
def MAgo (S : Solver) : ℕ → List Slice → List ℚ → List ℚ
  | _, [], _ => []
  | k, sl :: rest, x => Mk sl (S.Ak k x) ++ MAgo S (k + 1) rest x

/-- `Solver._MA`: the stacked masked forward model `x ↦ (M_k A_k x)_k`. -/
def Solver.MA (S : Solver) (x : List ℚ) : List ℚ := MAgo S 0 S.slices x

/-- Loop body of `Solver._get_M_y`: each masked observed slice `M_k y_k`
written into consecutive segments. -/
def MyGo : List Slice → List ℚ
  | [] => []
  | sl :: rest => Mk sl sl.y ++ MyGo rest

/-- `Solver._get_M_y`: all masked observed slices stacked into one array. -/
def Solver.getMy (S : Solver) : List ℚ := MyGo S.slices

/-- Loop body of `Solver._A_adj_M`: take slice `k`'s contiguous segment of the
stacked data, apply `A_k^T M_k`, and add the contribution onto the volume-space
accumulator `acc` (allocated as `np.zeros(N_voxels_HR_volume)`). -/
def AadjMgo (S : Solver) : ℕ → List Slice → List ℚ → List ℚ → List ℚ
  | _, [], _, acc => acc
  | k, sl :: rest, y, acc =>
      AadjMgo S (k + 1) rest (y.drop sl.y.length)
        (vadd acc (S.AkAdj k (Mk sl (y.take sl.y.length))))

/-- `Solver._A_adj_M`: the adjoint sum `y ↦ Σ_k A_k^T M_k y_k`. -/
def Solver.AadjM (S : Solver) (y : List ℚ) : List ℚ :=
  AadjMgo S 0 S.slices y (List.replicate S.Nvol 0)

/-- `Solver._D`: the three axis derivatives stacked into consecutive thirds of
one array of length `3 * Nvol`. -/
def Solver.D (S : Solver) (x : List ℚ) : List ℚ := S.Dx x ++ S.Dy x ++ S.Dz x

/-- `Solver._D_adj`: extract the slices `[N0 : N0+N]`, `[N0+N : N0+2N]` and
`[N0+2N : N0+3N]` of the stacked data, apply the adjoint derivatives and add
the three contributions. -/
def Solver.Dadj (S : Solver) (y : List ℚ) : List ℚ :=
  vadd (vadd (S.DxAdj ((y.drop S.N0).take S.Nvol))
             (S.DyAdj ((y.drop (S.N0 + S.Nvol)).take S.Nvol)))
       (S.DzAdj ((y.drop (S.N0 + 2 * S.Nvol)).take S.Nvol))

/-- `Solver._A_TK1`: the augmented operator allocates
`np.zeros(N_total_slice_voxels + 3 * N_voxels_HR_volume)`, fills `[0 : N0]`
with `_MA x` and `[N0 : N0 + 3*Nvol]` with `sqrt alpha * _D x`; since the two
written segments have exactly the allocated lengths (the operator shape
contracts above), the result is their concatenation. -/
def Solver.A_TK1 (S : Solver) (x : List ℚ) (alpha : ℚ) : List ℚ :=
  S.MA x ++ (S.D x).map fun t => S.sqrt alpha * t

/-- `Solver._A_adj_TK1`: `A^T M y + (D^T y) * sqrt alpha`. -/
def Solver.AadjTK1 (S : Solver) (y : List ℚ) (alpha : ℚ) : List ℚ :=
  vadd (S.AadjM y) ((S.Dadj y).map fun t => t * S.sqrt alpha)

/-- Sum of squared entries of a flat array (`np.sum (v ** 2)`). -/
def sumSq (l : List ℚ) : ℚ := (l.map fun t => t * t).sum

/-- `Solver._get_residual_ell2`: `np.sum ((MAx - My) ** 2)`. -/
def Solver.residual_ell2 (S : Solver) (x : List ℚ) : ℚ :=
  sumSq (vsub (S.MA x) S.getMy)

/-! ## Helper lemmas about the flat-array operations -/

theorem vadd_length (a b : List ℚ) : (vadd a b).length = min a.length b.length := by
  simp [vadd]

theorem Mk_length (sl : Slice) (v : List ℚ) :
    (Mk sl v).length = min sl.mask.length v.length := by
  simp [Mk]

theorem map_mul_zero_left (c : ℚ) (hc : c = 0) (l : List ℚ) :
    (l.map fun t => c * t) = List.replicate l.length 0 := by
  subst hc
  induction l with
  | nil => rfl
  | cons a l ih => simp [ih, List.replicate_succ]

theorem map_mul_zero_right (c : ℚ) (hc : c = 0) (l : List ℚ) :
    (l.map fun t => t * c) = List.replicate l.length 0 := by
  subst hc
  induction l with
  | nil => rfl
  | cons a l ih => simp [ih, List.replicate_succ]

theorem vadd_replicate_zero (a : List ℚ) (n : ℕ) (h : a.length ≤ n) :
    vadd a (List.replicate n 0) = a := by
  induction a generalizing n with
  | nil => simp [vadd]
  | cons x xs ih =>
      cases n with
      | zero => simp at h
      | succ m =>
          simp only [List.replicate_succ, vadd, List.zipWith_cons_cons, add_zero]
          exact congrArg (x :: ·) (ih m (Nat.le_of_succ_le_succ h))

theorem AadjMgo_length (S : Solver) (l : List Slice) :
    ∀ (k : ℕ) (y acc : List ℚ), acc.length = S.Nvol →
      (AadjMgo S k l y acc).length = S.Nvol := by
  induction l with
  | nil => intro k y acc hacc; simpa [AadjMgo] using hacc
  | cons sl rest ih =>
      intro k y acc hacc
      have hlen : (vadd acc (S.AkAdj k (Mk sl (y.take sl.y.length)))).length = S.Nvol := by
        rw [vadd_length, hacc, S.hAkAdj k, Nat.min_self]
      exact ih (k + 1) (y.drop sl.y.length) _ hlen

theorem Solver.AadjM_length (S : Solver) (y : List ℚ) : (S.AadjM y).length = S.Nvol :=
  AadjMgo_length S S.slices 0 y _ (List.length_replicate _ _)

theorem Solver.D_length (S : Solver) (x : List ℚ) : (S.D x).length = 3 * S.Nvol := by
  simp only [Solver.D, List.length_append, S.hDx, S.hDy, S.hDz]
  omega

theorem Solver.Dadj_length (S : Solver) (y : List ℚ) : (S.Dadj y).length = S.Nvol := by
  simp only [Solver.Dadj, vadd_length, S.hDxAdj, S.hDyAdj, S.hDzAdj, Nat.min_self]

/-- From the suffix of the slice list starting at position `k`, recover the
indexed slice. -/
theorem slices_drop_get (S : Solver) {k : ℕ} {sl : Slice} {rest : List Slice}
    (h : S.slices.drop k = sl :: rest) : S.slices.get? k = some sl := by
  have h0 : (S.slices.drop k).get? 0 = some sl := by rw [h]; rfl
  rwa [List.get?_drop, Nat.add_zero] at h0

theorem slices_drop_succ (S : Solver) {k : ℕ} {sl : Slice} {rest : List Slice}
    (h : S.slices.drop k = sl :: rest) : S.slices.drop (k + 1) = rest := by
  have : S.slices.drop (k + 1) = (S.slices.drop k).drop 1 := by
    rw [List.drop_drop, Nat.add_comm]
  rw [this, h, List.drop_one]
  rfl

theorem mem_of_slices_get (S : Solver) {k : ℕ} {sl : Slice}
    (h : S.slices.get? k = some sl) : sl ∈ S.slices :=
  List.get?_mem h

theorem MAgo_length (S : Solver) (x : List ℚ) (l : List Slice) :
    ∀ k, S.slices.drop k = l →
      (MAgo S k l x).length = (l.map fun sl => sl.y.length).sum := by
  induction l with
  | nil => intro k _; simp [MAgo]
  | cons sl rest ih =>
      intro k hk
      have hget := slices_drop_get S hk
      have hm := S.hmask sl (mem_of_slices_get S hget)
      have hA := S.hAk k sl hget x
      simp only [MAgo, List.length_append, Mk_length, hm, hA, Nat.min_self,
        List.map_cons, List.sum_cons]
      rw [ih (k + 1) (slices_drop_succ S hk)]

theorem Solver.MA_length (S : Solver) (x : List ℚ) : (S.MA x).length = S.N0 :=
  MAgo_length S x S.slices 0 rfl

theorem MyGo_length (l : List Slice) (h : ∀ sl ∈ l, sl.mask.length = sl.y.length) :
    (MyGo l).length = (l.map fun sl => sl.y.length).sum := by
  induction l with
  | nil => rfl
  | cons sl rest ih =>
      simp only [MyGo, List.length_append, Mk_length, h sl (by simp), Nat.min_self,
        List.map_cons, List.sum_cons]
      rw [ih fun s hs => h s (by simp [hs])]

theorem Solver.getMy_length (S : Solver) : S.getMy.length = S.N0 :=
  MyGo_length S.slices S.hmask

/-! ## Claim C3: zero-regularization reduction -/

/-- C3: with `alpha = 0` (and numpy `sqrt 0 = 0`), the augmented forward
operator is the plain masked forward model `(M_k A_k x)_k` followed by zero
regularization rows, and the augmented adjoint is exactly the plain adjoint
sum `Σ_k A_k^T M_k y_k`; both right-hand sides mention no differential
operator, so the outputs do not depend on `D` / `D^T`. -/
theorem A_TK1_zero_alpha (S : Solver) (hs : S.sqrt 0 = 0) (x y : List ℚ) :
    S.A_TK1 x 0 = S.MA x ++ List.replicate (3 * S.Nvol) 0 ∧
      S.AadjTK1 y 0 = S.AadjM y := by
  constructor
  · unfold Solver.A_TK1
    rw [map_mul_zero_left (S.sqrt 0) hs (S.D x), S.D_length]
  · unfold Solver.AadjTK1
    rw [map_mul_zero_right (S.sqrt 0) hs (S.Dadj y), S.Dadj_length]
    exact vadd_replicate_zero _ _ (le_of_eq (S.AadjM_length y))

/-! ## A concrete solver instance (used by the witnesses and counterexamples)

One stack with one slice of one voxel (`y = [2]`, mask `[1]`), an HR volume of
one voxel; the external filters return fixed correctly-shaped arrays and the
external `sqrt` is the zero function (which agrees with numpy `sqrt` at `0`,
the only point any theorem evaluates it at). -/

def sl0 : Slice := { y := [2], mask := [1] }

def S0 : Solver where
  slices := [sl0]
  Nvol := 1
  Ak := fun _ _ => [1]
  AkAdj := fun _ _ => [1]
  Dx := fun _ => [0]
  Dy := fun _ => [0]
  Dz := fun _ => [0]
  DxAdj := fun _ => [0]
  DyAdj := fun _ => [0]
  DzAdj := fun _ => [0]
  sqrt := fun _ => 0
  hmask := by intro sl h; simp only [List.mem_singleton] at h; subst h; rfl
  hAk := by
    intro k sl h v
    cases k with
    | zero =>
        simp only [List.get?_cons_zero, Option.some.injEq] at h
        subst h; rfl
    | succ n => simp [List.get?] at h
  hAkAdj := fun _ _ => rfl
  hDx := fun _ => rfl
  hDy := fun _ => rfl
  hDz := fun _ => rfl
  hDxAdj := fun _ => rfl
  hDyAdj := fun _ => rfl
  hDzAdj := fun _ => rfl

/-- Witness for C3 at the concrete instance `S0`. -/
theorem A_TK1_zero_alpha_witness :
    S0.sqrt 0 = 0 ∧
      (S0.A_TK1 [1] 0 = S0.MA [1] ++ List.replicate (3 * S0.Nvol) 0 ∧
        S0.AadjTK1 [1, 1, 1, 1] 0 = S0.AadjM [1, 1, 1, 1]) :=
  ⟨rfl, A_TK1_zero_alpha S0 rfl [1] [1, 1, 1, 1]⟩

/-! ## Claim C4: stacked lengths and segment layout -/

/-- Offset of slice `k`'s segment inside a stacked slice-space array (the
`i_min` reached after the first `k` loop iterations). -/
def Solver.offset (S : Solver) (k : ℕ) : ℕ :=
  ((S.slices.take k).map fun sl => sl.y.length).sum

theorem drop_length_add_append (a b : List ℚ) (n : ℕ) :
    (a ++ b).drop (a.length + n) = b.drop n := by
  rw [← List.drop_drop, List.drop_left]

theorem MAgo_segment (S : Solver) (x : List ℚ) (l : List Slice) :
    ∀ j, S.slices.drop j = l → ∀ k sl, l.get? k = some sl →
      ((MAgo S j l x).drop (((l.take k).map fun sl => sl.y.length).sum)).take
          sl.y.length
        = Mk sl (S.Ak (j + k) x) := by
  induction l with
  | nil => intro j _ k sl h; simp [List.get?] at h
  | cons sl0 rest ih =>
      intro j hj k sl h
      have hget := slices_drop_get S hj
      have hlen : (Mk sl0 (S.Ak j x)).length = sl0.y.length := by
        rw [Mk_length, S.hmask sl0 (mem_of_slices_get S hget), S.hAk j sl0 hget x,
          Nat.min_self]
      cases k with
      | zero =>
          simp only [List.get?_cons_zero, Option.some.injEq] at h
          subst h
          simp only [List.take_zero, List.map_nil, List.sum_nil, List.drop_zero,
            MAgo, Nat.add_zero]
          rw [← hlen, List.take_left]
      | succ k' =>
          simp only [List.get?_cons_succ] at h
          simp only [List.take_succ_cons, List.map_cons, List.sum_cons, MAgo]
          have hdrop :
              (Mk sl0 (S.Ak j x) ++ MAgo S (j + 1) rest x).drop
                  (sl0.y.length + ((rest.take k').map fun sl => sl.y.length).sum)
                = (MAgo S (j + 1) rest x).drop
                    (((rest.take k').map fun sl => sl.y.length).sum) := by
            rw [← hlen, drop_length_add_append]
          rw [hdrop]
          have harith : j + (k' + 1) = (j + 1) + k' := by omega
          rw [harith]
          exact ih (j + 1) (slices_drop_succ S hj) k' sl h

/-- C4 (amended): for every solver instance the augmented operator's output
always has length `Σ_k n_k + 3 * Nvol` — for every `alpha`, including `0` —
while the stacked masked observations `_get_M_y` have length `Σ_k n_k`; the
per-slice segments of the stacked forward model are contiguous in
stack-then-slice order: slice `k`'s segment starts at offset
`Σ_{j<k} n_j` and equals `M_k A_k x`. -/
theorem augmented_operator_lengths (S : Solver) (alpha : ℚ) (x : List ℚ)
    (k : ℕ) (sl : Slice) (h : S.slices.get? k = some sl) :
    (S.A_TK1 x alpha).length = S.N0 + 3 * S.Nvol ∧
      S.getMy.length = S.N0 ∧
      ((S.MA x).drop (S.offset k)).take sl.y.length = Mk sl (S.Ak k x) := by
  refine ⟨?_, S.getMy_length, ?_⟩
  · simp only [Solver.A_TK1, List.length_append, List.length_map, S.MA_length,
      S.D_length]
  · have := MAgo_segment S x S.slices 0 rfl k sl h
    rw [Nat.zero_add] at this
    exact this

/-- Witness for the amended C4 at the concrete instance `S0` (with a strictly
positive `alpha`). -/
theorem augmented_operator_lengths_witness :
    S0.slices.get? 0 = some sl0 ∧
      ((S0.A_TK1 [1] 5).length = S0.N0 + 3 * S0.Nvol ∧
        S0.getMy.length = S0.N0 ∧
        ((S0.MA [1]).drop (S0.offset 0)).take sl0.y.length = Mk sl0 (S0.Ak 0 [1])) :=
  ⟨rfl, augmented_operator_lengths S0 5 [1] 0 sl0 rfl⟩

/-- C4 counterexample: at `alpha = 0` the problem is not regularized, yet the
augmented operator's output still carries the `3 * Nvol` regularization rows:
on `S0` (one slice voxel, one volume voxel) its length is `4 = N0 + 3 * Nvol`,
not `N0 = 1` as the claimed `if and only if` would require. -/
theorem augmented_operator_length_if_and_only_if_cex :
    ¬ ((0 : ℚ) > 0) ∧ S0.N0 = 1 ∧ S0.Nvol = 1 ∧
      (S0.A_TK1 [1] 0).length = 4 ∧ ¬ ((S0.A_TK1 [1] 0).length = S0.N0) := by
  refine ⟨by norm_num, rfl, rfl, ?_, ?_⟩
  · rfl
  · intro h
    simp only [Solver.N0] at h
    revert h
    decide

/-! ## Claim C5: the ell2 residual, slice by slice -/

theorem sumSq_append (a b : List ℚ) : sumSq (a ++ b) = sumSq a + sumSq b := by
  simp [sumSq]

/-- Elementwise masking distributes over elementwise subtraction:
`M_k (a - b) = M_k a - M_k b` (pointwise `m * (a - b) = m * a - m * b`). -/
theorem Mk_vsub (sl : Slice) (a b : List ℚ) :
    Mk sl (vsub a b) = vsub (Mk sl a) (Mk sl b) := by
  show List.zipWith (· * ·) sl.mask (List.zipWith (· - ·) a b)
      = List.zipWith (· - ·) (List.zipWith (· * ·) sl.mask a)
          (List.zipWith (· * ·) sl.mask b)
  induction sl.mask generalizing a b with
  | nil => rfl
  | cons m ms ih =>
      cases a with
      | nil => rfl
      | cons x xs =>
          cases b with
          | nil => rfl
          | cons z zs =>
              simp only [List.zipWith_cons_cons, ih, mul_sub]

/-- The spec-side form of the residual: `Σ_k ‖ M_k (A_k x - y_k) ‖²`, summed
over the slices starting at index `k`. -/
def resTermSum (S : Solver) : ℕ → List Slice → List ℚ → ℚ
  | _, [], _ => 0
  | k, sl :: rest, x =>
      sumSq (Mk sl (vsub (S.Ak k x) sl.y)) + resTermSum S (k + 1) rest x

theorem vsub_append (a b c d : List ℚ) (h : a.length = b.length) :
    vsub (a ++ c) (b ++ d) = vsub a b ++ vsub c d :=
  List.zipWith_append _ _ _ _ _ h

theorem residual_go (S : Solver) (x : List ℚ) (l : List Slice) :
    ∀ k, S.slices.drop k = l →
      sumSq (vsub (MAgo S k l x) (MyGo l)) = resTermSum S k l x := by
  induction l with
  | nil => intro k _; simp [MAgo, MyGo, resTermSum, vsub, sumSq]
  | cons sl rest ih =>
      intro k hk
      have hget := slices_drop_get S hk
      have hm := S.hmask sl (mem_of_slices_get S hget)
      have hlen : (Mk sl (S.Ak k x)).length = (Mk sl sl.y).length := by
        rw [Mk_length, Mk_length, hm, S.hAk k sl hget x]
      show sumSq (vsub (Mk sl (S.Ak k x) ++ MAgo S (k + 1) rest x)
          (Mk sl sl.y ++ MyGo rest)) = _
      rw [vsub_append _ _ _ _ hlen, sumSq_append, ← Mk_vsub,
        ih (k + 1) (slices_drop_succ S hk)]
      rfl

/-- C5: the computed ell2-residual statistic `np.sum ((MAx - My) ** 2)` equals
the sum over all slices `k` (across all stacks) of
`‖ M_k (A_k x - y_k) ‖²`.  (The identity needs no idempotence: it follows from
`M_k (a - b) = M_k a - M_k b`; the binary-mask assumption of the claim is
carried along.) -/
theorem residual_ell2_slicewise (S : Solver) (x : List ℚ)
    (_hbin : ∀ sl ∈ S.slices, ∀ m ∈ sl.mask, m = 0 ∨ m = 1) :
    S.residual_ell2 x = resTermSum S 0 S.slices x :=
  residual_go S x S.slices 0 rfl

/-- Witness for C5 at the concrete instance `S0` (whose single mask is the
binary `[1]`). -/
theorem residual_ell2_slicewise_witness :
    (∀ sl ∈ S0.slices, ∀ m ∈ sl.mask, m = 0 ∨ m = 1) ∧
      S0.residual_ell2 [1] = resTermSum S0 0 S0.slices [1] :=
  ⟨by decide, residual_ell2_slicewise S0 [1] (by decide)⟩

/-! ## Claims C2 / C6 / C9: backends, dispatch, getters

Python-level failure modes that the solver code can raise. -/

inductive PyErr where
  /-- `NameError`: a local variable is read before any assignment to it
  (the variable `x` in `_get_approximate_solution_lsqr`). -/
  | nameErrorX : PyErr
  /-- `ValueError` raised by the statistics getters. -/
  | valueError : PyErr
  /-- `KeyError` raised by a failed dictionary lookup, carrying the key. -/
  | keyError : String → PyErr
deriving DecidableEq

/-- Reading a Python local variable: `some` if it has been assigned,
`NameError` otherwise. -/
def readLocal (v : Option (List ℚ)) : Except PyErr (List ℚ) :=
  match v with
  | some l => Except.ok l
  | none => Except.error PyErr.nameErrorX

/-- `np.clip (v, 0, np.inf)`: chop off negative values elementwise. -/
def clip0 (l : List ℚ) : List ℚ := l.map fun t => max t 0

/-- `Solver._get_approximate_solution_lsmr`: run scipy's `lsmr` (external,
hence the parameter `scipyLsmr`, applied to the forward operator, the adjoint
operator, the right-hand side and `iter_max`), then clip the result to
nonnegative. -/
def getApproximateSolutionLsmr
    (scipyLsmr : (List ℚ → List ℚ) → (List ℚ → List ℚ) → List ℚ → ℕ → List ℚ)
    (A_fw A_bw : List ℚ → List ℚ) (b : List ℚ) (iterMax : ℕ) : List ℚ :=
  clip0 (scipyLsmr A_fw A_bw b iterMax)

/-- `Solver._get_approximate_solution_lsqr`, statement by statement:
`HR_nda_vec = lsqr(A, b, maxiter=..., show=True)[0]` binds `HR_nda_vec`;
the next statement `x = np.clip(x, 0, np.inf)` evaluates its right-hand side
first, which reads the local `x` — a variable no prior statement assigned —
so the read raises before `return HR_nda_vec` is reached. -/
def getApproximateSolutionLsqr
    (scipyLsqr : (List ℚ → List ℚ) → (List ℚ → List ℚ) → List ℚ → ℕ → List ℚ)
    (A_fw A_bw : List ℚ → List ℚ) (b : List ℚ) (iterMax : ℕ) :
    Except PyErr (List ℚ) := do
  let HR_nda_vec := scipyLsqr A_fw A_bw b iterMax
  let xRead ← readLocal none
  let _x := clip0 xRead
  Except.ok HR_nda_vec

/-- C2 (the code at the failing input): the `lsqr` backend never returns a
vector at all — on every input it raises `NameError` at the line
`x = np.clip(x, 0, np.inf)`, because `x` is unbound there; in particular it
does not return the clipped nonnegative volume-size vector the claim
describes.  (The intended behavior is apparent from the adjacent comment
`Chop off negative values` and from the correct `lsmr` variant.) -/
theorem lsqr_backend_raises_name_error
    (scipyLsqr : (List ℚ → List ℚ) → (List ℚ → List ℚ) → List ℚ → ℕ → List ℚ)
    (A_fw A_bw : List ℚ → List ℚ) (b : List ℚ) (iterMax : ℕ) :
    getApproximateSolutionLsqr scipyLsqr A_fw A_bw b iterMax
      = Except.error PyErr.nameErrorX := rfl

/-- The backend names registered in the `_get_approximate_solution` dispatch
dictionary built in `Solver.__init__`, in insertion order. -/
def supportedMinimizers : List String :=
  ["lsmr", "lsqr", "nnls", "lsq_linear", "L-BFGS-B", "least_squares"]

/-- Tags for the six registered backend methods. -/
inductive BackendTag where
  | lsmr | lsqr | nnls | lsq_linear | LBFGSB | least_squares
deriving DecidableEq

/-- Lookup in the `_get_approximate_solution` dictionary: the configured
minimizer name is the key (neither `__init__` nor `set_minimizer` validates
it; an unregistered key has no entry). -/
def lookupMinimizer (name : String) : Option BackendTag :=
  if name = "lsmr" then some BackendTag.lsmr
  else if name = "lsqr" then some BackendTag.lsqr
  else if name = "nnls" then some BackendTag.nnls
  else if name = "lsq_linear" then some BackendTag.lsq_linear
  else if name = "L-BFGS-B" then some BackendTag.LBFGSB
  else if name = "least_squares" then some BackendTag.least_squares
  else none

/-- Modelled from the spec: the dispatch call site
(`run_reconstruction` of the concrete subclasses, not part of `src/`)
resolves `self._get_approximate_solution[self._minimizer]` and only then
performs the numeric solve; a failed lookup raises `KeyError` at once, before
any numeric work (spec sections 4.6 and 7). -/
def runReconstruction (minimizer : String) (numericWork : BackendTag → List ℚ) :
    Except PyErr (List ℚ) :=
  match lookupMinimizer minimizer with
  | none => Except.error (PyErr.keyError minimizer)
  | some tag => Except.ok (numericWork tag)

/-- C6: a minimizer name outside the dispatch dictionary makes the solve fail
with a `KeyError` carrying that name, whatever numeric work the chosen
backend would have performed — the result does not depend on `numericWork`,
so no partial numeric computation is reflected in it. -/
theorem unknown_minimizer_fails_fast (name : String)
    (h : name ∉ supportedMinimizers) :
    ∀ numericWork : BackendTag → List ℚ,
      runReconstruction name numericWork = Except.error (PyErr.keyError name) := by
  intro numericWork
  simp only [supportedMinimizers, List.mem_cons, List.mem_singleton, not_or] at h
  obtain ⟨h1, h2, h3, h4, h5, h6⟩ := h
  simp [runReconstruction, lookupMinimizer, h1, h2, h3, h4, h5, h6]

/-- Witness for C6: the name `sirf` is not registered, and dispatching on it
yields the `KeyError`. -/
theorem unknown_minimizer_fails_fast_witness :
    "sirf" ∉ supportedMinimizers ∧
      runReconstruction "sirf" (fun _ => [7]) = Except.error (PyErr.keyError "sirf") :=
  ⟨by decide, unknown_minimizer_fails_fast "sirf" (by decide) fun _ => [7]⟩

/-- Python-2 comparison of a statistics attribute against `0`: in the Python 2
interpreter this code base runs under (`print` statements in
`VolumeReconstruction.py`), `None < 0` evaluates to `True`, so an attribute
still holding its `__init__` value `None` passes the `< 0` test. -/
def py2LtZero (v : Option ℚ) : Bool :=
  match v with
  | none => true
  | some t => decide (t < 0)

/-- `Solver.get_computational_time`: raise `ValueError` when
`_elapsed_time_sec < 0` (which is the case for the initial `None`), otherwise
return the stored attribute. -/
def getComputationalTime (elapsedTimeSec : Option ℚ) : Except PyErr (Option ℚ) :=
  if py2LtZero elapsedTimeSec then Except.error PyErr.valueError
  else Except.ok elapsedTimeSec

/-- `Solver.get_residual_ell2`: raise `ValueError` when `_residual_ell2 < 0`
(the case for the initial `None`), otherwise return it. -/
def getResidualEll2 (residualEll2 : Option ℚ) : Except PyErr (Option ℚ) :=
  if py2LtZero residualEll2 then Except.error PyErr.valueError
  else Except.ok residualEll2

/-- `Solver.get_residual_prior`: raise `ValueError` when `_residual_prior < 0`
(the case for the initial `None`), otherwise return it. -/
def getResidualPrior (residualPrior : Option ℚ) : Except PyErr (Option ℚ) :=
  if py2LtZero residualPrior then Except.error PyErr.valueError
  else Except.ok residualPrior

/-- C9: called in the construction state — all three statistics attributes are
initialized to `None` in `__init__` — each getter raises `ValueError` instead
of returning a value. -/
theorem getters_raise_before_computation :
    getComputationalTime none = Except.error PyErr.valueError ∧
      getResidualEll2 none = Except.error PyErr.valueError ∧
      getResidualPrior none = Except.error PyErr.valueError :=
  ⟨rfl, rfl, rfl⟩

/-! ## The legacy Shepard fusion path (`src/VolumeReconstruction.py`)

A `Volume` is the HR volume `Stack` object's sitk image: header geometry plus
the flattened voxel array.  The nearest-neighbour resampler (`sitk.Resample`
with default pixel value `0`) and the recursive Gaussian smoothers (YVV
respectively Deriche variant) are external, hence parameters `resample` and
`g`; the same smoother instance settings are applied to the numerator and the
denominator, hence one shared `g`. -/

structure Volume where
  spacing : List ℚ
  origin : List ℚ
  direction : List ℚ
  voxels : List ℚ

/-- One slice's contribution to the numerator/denominator accumulators
(the loop body at lines 83–90 and 177–184): at every voxel whose resampled
intensity is strictly positive (`nda_slice > 0`) add the intensity to
`helper_N_nda` and `1` to `helper_D_nda`; every other voxel is untouched. -/
def shepardStep (acc : List ℚ × List ℚ) (s : List ℚ) : List ℚ × List ℚ :=
  (List.zipWith (fun aN a => if 0 < a then aN + a else aN) acc.1 s,
   List.zipWith (fun aD a => if 0 < a then aD + 1 else aD) acc.2 s)

/-- The full accumulation over all resampled slice arrays, starting from the
`np.zeros(shape)` pair. -/
def shepardAccum (n : ℕ) (ndas : List (List ℚ)) : List ℚ × List ℚ :=
  ndas.foldl shepardStep (List.replicate n 0, List.replicate n 0)

/-- The divisor used by `_use_discrete_shepard` (YVV variant): the smoothed
denominator, used in `nda = nda_N / nda_D` as it is — the zero guard
`nda_D[nda_D==0]=1` is commented out in the source. -/
def yvvDivisor (g : List ℚ → List ℚ) (n : ℕ) (ndas : List (List ℚ)) : List ℚ :=
  g (shepardAccum n ndas).2

/-- `VolumeReconstruction._use_discrete_shepard`: accumulate over the
nearest-neighbour-resampled slices of every stack, smooth numerator and
denominator with the same recursive Gaussian, divide elementwise, and build
the updated volume from the quotient array with the header copied from the
current HR volume (`CopyInformation(HR_volume.sitk)`), finally stored back by
`HR_volume.sitk = HR_volume_update`.  (Division here is exact rational
division; in numpy a zero denominator instead produces `nan`/`inf` — the
divisor array itself is `yvvDivisor`.) -/
def useDiscreteShepard (g : List ℚ → List ℚ) (resample : List ℚ → Volume → List ℚ)
    (stackList : List (List (List ℚ))) (hr : Volume) : Volume :=
  let ndas := (stackList.map fun st => st.map fun sl => resample sl hr).join
  let nda := List.zipWith (· / ·) (g (shepardAccum hr.voxels.length ndas).1)
    (yvvDivisor g hr.voxels.length ndas)
  { spacing := hr.spacing, origin := hr.origin, direction := hr.direction,
    voxels := nda }

/-- The `eps = 1e-8` floor of the Deriche-variant HACK block. -/
def dericheEps : ℚ := 1 / 100000000

/-- `nda[nda<=eps] = 1` applied to the smoothed denominator. -/
def dericheFloorDen (l : List ℚ) : List ℚ :=
  l.map fun d => if d ≤ dericheEps then 1 else d

/-- `nda[nda<=eps] = 0` applied to the smoothed numerator. -/
def dericheFloorNum (l : List ℚ) : List ℚ :=
  l.map fun t => if t ≤ dericheEps then 0 else t

/-- The divisor used by `_use_discrete_shepard_based_on_Deriche`: the smoothed
denominator after the epsilon floor. -/
def dericheDivisor (g : List ℚ → List ℚ) (n : ℕ) (ndas : List (List ℚ)) : List ℚ :=
  dericheFloorDen (g (shepardAccum n ndas).2)

/-- `VolumeReconstruction._use_discrete_shepard_based_on_Deriche`: same
accumulation and smoothing, but the denominator is floored
(`nda[nda<=eps]=1`) and the numerator cleaned (`nda[nda<=eps]=0`) before the
division; header handling as in the YVV variant. -/
def useDiscreteShepardDeriche (g : List ℚ → List ℚ)
    (resample : List ℚ → Volume → List ℚ) (stackList : List (List (List ℚ)))
    (hr : Volume) : Volume :=
  let ndas := (stackList.map fun st => st.map fun sl => resample sl hr).join
  let nda := List.zipWith (· / ·)
    (dericheFloorNum (g (shepardAccum hr.voxels.length ndas).1))
    (dericheDivisor g hr.voxels.length ndas)
  { spacing := hr.spacing, origin := hr.origin, direction := hr.direction,
    voxels := nda }

/-- A divisor array is epsilon-floor guarded when no entry at or below the
`eps` floor survives into the division (after the documented adjustment every
entry exceeds the floor). -/
def epsGuarded (divisor : List ℚ) : Prop := ∀ d ∈ divisor, dericheEps < d

/-- A tiny concrete volume: two voxels, trivial header. -/
def hr0 : Volume := { spacing := [1], origin := [0], direction := [1], voxels := [0, 0] }

/-- C7 counterexample: with the identity smoother and the single resampled
slice `[3, 0]` the YVV variant's denominator array is `[1, 0]`: its second
voxel is `0 ≤ eps` and reaches the division unadjusted (that very array is
what `_use_discrete_shepard` divides by), so the claim fails for the YVV
fusion variant. -/
theorem yvv_division_unguarded_cex :
    yvvDivisor id 2 [[3, 0]] = [1, 0] ∧
      ¬ epsGuarded (yvvDivisor id 2 [[3, 0]]) ∧
      (useDiscreteShepard id (fun sl _ => sl) [[[3, 0]]] hr0).voxels
        = List.zipWith (· / ·) (id (shepardAccum 2 [[3, 0]]).1)
            (yvvDivisor id 2 [[3, 0]]) := by
  have hdiv : yvvDivisor id 2 [[3, 0]] = [1, 0] := by
    norm_num [yvvDivisor, shepardAccum, shepardStep, List.replicate]
  refine ⟨hdiv, ?_, rfl⟩
  intro hguard
  have h0 : (0 : ℚ) ∈ yvvDivisor id 2 [[3, 0]] := by rw [hdiv]; simp
  have hlt := hguard 0 h0
  norm_num [dericheEps] at hlt

/-- C7 (amended): only the Deriche variant guards its divisions — after its
`eps`-floor every denominator entry strictly exceeds `eps` (entries at or
below the floor are set to `1`), for every smoother and every input — while
the YVV variant divides by the smoothed denominator completely unmodified. -/
theorem deriche_guarded_yvv_unguarded (g : List ℚ → List ℚ) (n : ℕ)
    (ndas : List (List ℚ)) :
    epsGuarded (dericheDivisor g n ndas) ∧
      yvvDivisor g n ndas = g (shepardAccum n ndas).2 := by
  refine ⟨?_, rfl⟩
  intro d hd
  simp only [dericheDivisor, dericheFloorDen, List.mem_map] at hd
  obtain ⟨t, _, rfl⟩ := hd
  by_cases h : t ≤ dericheEps
  · rw [if_pos h]
    norm_num [dericheEps]
  · rw [if_neg h]
    exact lt_of_not_le h

/-! ## Claim C8: the reconstruction update's frame -/

/-- The caller-visible state around a reconstruction update: the input stacks
of slice data and the HR volume `Stack` object. -/
structure ReconState where
  stackList : List (List (List ℚ))
  hr : Volume

/-- `VolumeReconstruction.update_reconstructed_volume`: runs
`_use_discrete_shepard(HR_volume)` (the Deriche variant call is commented
out), which only reads the stacks — resampling consumes them — and replaces
`HR_volume.sitk` by the freshly built image whose header was copied from the
previous `HR_volume.sitk`; the remaining statements only time and display. -/
def updateReconstructedVolume (g : List ℚ → List ℚ)
    (resample : List ℚ → Volume → List ℚ) (s : ReconState) : ReconState :=
  { stackList := s.stackList,
    hr := useDiscreteShepard g resample s.stackList s.hr }

/-- C8: the update leaves the input stacks (and with them every slice array)
untouched and preserves the volume's spacing, origin and direction; only the
voxel array is replaced (by the fused quotient array). -/
theorem update_mutates_only_voxels (g : List ℚ → List ℚ)
    (resample : List ℚ → Volume → List ℚ) (s : ReconState) :
    (updateReconstructedVolume g resample s).stackList = s.stackList ∧
      (updateReconstructedVolume g resample s).hr.spacing = s.hr.spacing ∧
      (updateReconstructedVolume g resample s).hr.origin = s.hr.origin ∧
      (updateReconstructedVolume g resample s).hr.direction = s.hr.direction :=
  ⟨rfl, rfl, rfl, rfl⟩

/-! ## Claim C10: which voxels contribute to the Shepard accumulators -/

theorem getD_zipWith (f : ℚ → ℚ → ℚ) (a : List ℚ) :
    ∀ (b : List ℚ) (v : ℕ), v < a.length → v < b.length →
      (List.zipWith f a b).getD v 0 = f (a.getD v 0) (b.getD v 0) := by
  induction a with
  | nil => intro b v hv _; simp at hv
  | cons x xs ih =>
      intro b v hv hvb
      cases b with
      | nil => simp at hvb
      | cons z zs =>
          cases v with
          | zero => rfl
          | succ w =>
              simp only [List.zipWith_cons_cons, List.getD_cons_succ]
              exact ih zs w (Nat.lt_of_succ_lt_succ hv) (Nat.lt_of_succ_lt_succ hvb)

theorem getD_replicate_zero (n v : ℕ) : (List.replicate n (0 : ℚ)).getD v 0 = 0 := by
  induction n generalizing v with
  | zero => simp [List.getD]
  | succ m ih =>
      cases v with
      | zero => rfl
      | succ w => rw [List.replicate_succ, List.getD_cons_succ]; exact ih w

theorem shepardAccum_go (n v : ℕ) (hv : v < n) :
    ∀ (ndas : List (List ℚ)) (accN accD : List ℚ),
      (∀ s ∈ ndas, s.length = n) → accN.length = n → accD.length = n →
      ((ndas.foldl shepardStep (accN, accD)).1.getD v 0
          = accN.getD v 0
            + (ndas.map fun s => if 0 < s.getD v 0 then s.getD v 0 else 0).sum)
        ∧ ((ndas.foldl shepardStep (accN, accD)).2.getD v 0
          = accD.getD v 0
            + (ndas.map fun s => if 0 < s.getD v 0 then (1 : ℚ) else 0).sum) := by
  intro ndas
  induction ndas with
  | nil => intro accN accD _ _ _; simp
  | cons s rest ih =>
      intro accN accD hlen hN hD
      have hs : s.length = n := hlen s (by simp)
      have hvN : v < accN.length := by omega
      have hvD : v < accD.length := by omega
      have hvs : v < s.length := by omega
      have hN' : (List.zipWith (fun aN a => if 0 < a then aN + a else aN) accN s).length = n := by
        simp [hN, hs]
      have hD' : (List.zipWith (fun aD a => if 0 < a then aD + 1 else aD) accD s).length = n := by
        simp [hD, hs]
      have hrest := ih (List.zipWith (fun aN a => if 0 < a then aN + a else aN) accN s)
        (List.zipWith (fun aD a => if 0 < a then aD + 1 else aD) accD s)
        (fun t ht => hlen t (by simp [ht])) hN' hD'
      simp only [List.foldl_cons, List.map_cons, List.sum_cons]
      constructor
      · rw [show shepardStep (accN, accD) s
            = (List.zipWith (fun aN a => if 0 < a then aN + a else aN) accN s,
               List.zipWith (fun aD a => if 0 < a then aD + 1 else aD) accD s) from rfl]
        rw [hrest.1, getD_zipWith _ _ _ _ hvN hvs]
        by_cases h : 0 < s.getD v 0
        · simp only [if_pos h]; ring
        · simp only [if_neg h]; ring
      · rw [show shepardStep (accN, accD) s
            = (List.zipWith (fun aN a => if 0 < a then aN + a else aN) accN s,
               List.zipWith (fun aD a => if 0 < a then aD + 1 else aD) accD s) from rfl]
        rw [hrest.2, getD_zipWith _ _ _ _ hvD hvs]
        by_cases h : 0 < s.getD v 0
        · simp only [if_pos h]; ring
        · simp only [if_neg h]; ring

/-- Replacing every non-positive intensity of a resampled slice by `0` — the
default pixel value the resampler writes outside the slice footprint — does
not change one accumulation step. -/
theorem shepardStep_sanitize (acc : List ℚ × List ℚ) (s : List ℚ) :
    shepardStep acc (s.map fun a => if 0 < a then a else 0) = shepardStep acc s := by
  unfold shepardStep
  have hcong : ∀ (f : ℚ → ℚ → ℚ) (l : List ℚ),
      (∀ x a, f x (if 0 < a then a else 0) = f x a) →
      List.zipWith f l (s.map fun a => if 0 < a then a else 0) = List.zipWith f l s := by
    intro f l hf
    rw [List.zipWith_map_right]
    have : (fun x a => f x (if 0 < a then a else 0)) = f := by
      funext x a; exact hf x a
    rw [this]
  refine Prod.ext ?_ ?_
  · refine hcong _ _ ?_
    intro x a
    by_cases h : 0 < a
    · simp [h]
    · simp [h]
  · refine hcong _ _ ?_
    intro x a
    by_cases h : 0 < a
    · simp [h]
    · simp [h]

/-- C10: a resampled voxel contributes to the numerator accumulator (its
intensity) and to the denominator accumulator (a count of `1`) precisely when
its nearest-neighbour-resampled intensity is strictly positive, and zeroing
every non-positive intensity — making those voxels indistinguishable from
voxels outside a slice's footprint, which the resampler fills with the
default pixel value `0` — leaves both accumulators unchanged. -/
theorem shepard_contribution_iff_positive (n : ℕ) (ndas : List (List ℚ))
    (h : ∀ s ∈ ndas, s.length = n) (v : ℕ) (hv : v < n) :
    (shepardAccum n ndas).1.getD v 0
        = (ndas.map fun s => if 0 < s.getD v 0 then s.getD v 0 else 0).sum
      ∧ (shepardAccum n ndas).2.getD v 0
        = (ndas.map fun s => if 0 < s.getD v 0 then (1 : ℚ) else 0).sum
      ∧ shepardAccum n (ndas.map fun s => s.map fun a => if 0 < a then a else 0)
        = shepardAccum n ndas := by
  have hrep : (List.replicate n (0 : ℚ)).length = n := List.length_replicate n 0
  have hmain := shepardAccum_go n v hv ndas (List.replicate n 0) (List.replicate n 0)
    h hrep hrep
  refine ⟨?_, ?_, ?_⟩
  · rw [shepardAccum, hmain.1, getD_replicate_zero, zero_add]
  · rw [shepardAccum, hmain.2, getD_replicate_zero, zero_add]
  · unfold shepardAccum
    rw [List.foldl_map]
    have : (fun (acc : List ℚ × List ℚ) s =>
        shepardStep acc (s.map fun a => if 0 < a then a else 0)) = shepardStep := by
      funext acc s; exact shepardStep_sanitize acc s
    rw [this]

/-- Witness for C10 at the concrete input `[[3, -1]]` (one resampled slice
with a positive and a negative voxel), `n = 2`, voxel `v = 1`. -/
theorem shepard_contribution_iff_positive_witness :
    (∀ s ∈ [[(3 : ℚ), -1]], s.length = 2) ∧ 1 < 2 ∧
      ((shepardAccum 2 [[3, -1]]).1.getD 1 0
          = ([[(3 : ℚ), -1]].map fun s => if 0 < s.getD 1 0 then s.getD 1 0 else 0).sum
        ∧ (shepardAccum 2 [[3, -1]]).2.getD 1 0
          = ([[(3 : ℚ), -1]].map fun s => if 0 < s.getD 1 0 then (1 : ℚ) else 0).sum
        ∧ shepardAccum 2 ([[(3 : ℚ), -1]].map fun s => s.map fun a => if 0 < a then a else 0)
          = shepardAccum 2 [[3, -1]]) :=
  ⟨by simp, by omega, shepard_contribution_iff_positive 2 [[3, -1]] (by simp) 1 (by omega)⟩
